import Mathlib

/-!
Shallow embedding of github.com/saylorsolutions/cache: the single-value
lazy cache `Value` (cache.go), the keyed `MultiCache` (multicache.go),
the double-buffered `MultiCache` (buffered/buffered.go) and the
file-backed reader cache (file/reader.go).

Time is modelled as `Int` (an absolute instant); `time.Duration` is an
`Int`; the Go zero `time.Time{}` is `0`.  Loader functions are modelled
as parameters giving the outcome of the next invocation; loader
invocations are counted through an explicit external state.  Errors are
strings, as Go error values.
-/

/-- Error values, as produced by Go loaders. -/
abbrev Err := String

/-- State of a `cache.Value[T]` (cache.go): the held instance `val`
(`nil` pointer means absent), the `ttl` duration, the absolute
`expiration` instant, the `getRefreshes` flag, and whether an
`onInvalidate` callback is installed. -/
structure ValueS (T : Type) where
  val : Option T
  ttl : Int
  expiration : Int
  getRefreshes : Bool
  hasOnInvalidate : Bool
deriving DecidableEq, Repr

/-- State of a freshly constructed `Value` (`New` / `new(Value[T])`):
no value, no TTL, zero expiration, no refresh, no callback. -/
def freshValue {T : Type} : ValueS T :=
  ⟨none, 0, 0, false, false⟩

/-- Translation of `Value.cacheExpired`: `false` when `ttl <= 0`,
otherwise whether `expiration` is before `now`. -/
def cacheExpired {T : Type} (c : ValueS T) (now : Int) : Bool :=
  if c.ttl ≤ 0 then false else decide (c.expiration < now)

/-- A loader as invoked from `Value.load` while the write lock is held.
It may read and mutate the `Value` itself (the closure installed by
`NewWithTTL` assigns `c.ttl`) and an external state `S` (the
read-through loader of package buffered mutates the write buffer; a
plain counter tallies invocations). -/
def LoadFunc (T S : Type) : Type :=
  ValueS T → S → Except Err T × ValueS T × S

/-- Result of one `Value.Get` or `Value.load` call: the returned
(value, error) pair, the Value state afterwards, the external state
afterwards, and the number of `onInvalidate` invocations the call
performed. -/
structure VStep (T S : Type) where
  res : Except Err T
  val : ValueS T
  ext : S
  invCalls : Nat
deriving Repr

/-- Body of `Value.load` past the double-check: invoke the loader; on
error return it (leaving `val` untouched); on success store the value
and, when `ttl > 0`, set `expiration = now + ttl`.  No path invokes
`onInvalidate`. -/
def vLoadMiss {T S : Type} (c : ValueS T) (now : Int) (f : LoadFunc T S) (s : S) :
    VStep T S :=
  match f c s with
  | (.error e, c1, s1) => ⟨.error e, c1, s1, 0⟩
  | (.ok v, c1, s1) =>
    ⟨.ok v,
     { c1 with val := some v,
               expiration := if c1.ttl > 0 then now + c1.ttl else c1.expiration },
     s1, 0⟩

/-- Translation of `Value.load`: under the write lock, re-check
(double-checked locking) and return the held value when still valid;
otherwise run the loader body. -/
def vLoad {T S : Type} (c : ValueS T) (now : Int) (f : LoadFunc T S) (s : S) :
    VStep T S :=
  match c.val with
  | some v => if cacheExpired c now then vLoadMiss c now f s else ⟨.ok v, c, s, 0⟩
  | none => vLoadMiss c now f s

/-- Translation of `Value.refreshTimer`: a no-op when `ttl <= 0`,
otherwise push `expiration` to `now + ttl`. -/
def refreshTimer {T : Type} (c : ValueS T) (now : Int) : ValueS T :=
  if c.ttl ≤ 0 then c else { c with expiration := now + c.ttl }

/-- Translation of `Value.Get`: when a value is held and unexpired,
return it (refreshing the timer when `getRefreshes` is set); otherwise
fall through to `load`.  No path invokes `onInvalidate`. -/
def vGet {T S : Type} (c : ValueS T) (now : Int) (f : LoadFunc T S) (s : S) :
    VStep T S :=
  match c.val with
  | some v =>
    if cacheExpired c now then vLoad c now f s
    else ⟨.ok v, if c.getRefreshes then refreshTimer c now else c, s, 0⟩
  | none => vLoad c now f s

/-- Translation of `Value.Invalidate`: clear `expiration` and `val`
unconditionally, invoke `onInvalidate` when one is installed.  Returns
the new state and the number of callback invocations performed. -/
def vInvalidate {T : Type} (c : ValueS T) : ValueS T × Nat :=
  ({ c with expiration := 0, val := none },
   if c.hasOnInvalidate then 1 else 0)

/-- Translation of `Value.OnInvalidate`: install a callback. -/
def vOnInvalidate {T : Type} (c : ValueS T) : ValueS T :=
  { c with hasOnInvalidate := true }

/-- Body of `Value.SetTTL` past the `ttl <= 0` panic guard: set `ttl`,
set `expiration = now + ttl`, and disable `getRefreshes`. -/
def setTTLcore {T : Type} (c : ValueS T) (ttl now : Int) : ValueS T :=
  { c with ttl := ttl, expiration := now + ttl, getRefreshes := false }

/-- Translation of `Value.SetTTL`: `none` models the panic on
`ttl <= 0`. -/
def vSetTTL {T : Type} (c : ValueS T) (ttl now : Int) : Option (ValueS T) :=
  if ttl ≤ 0 then none else some (setTTLcore c ttl now)

/-- Translation of `Value.RemoveTTL`: clear `ttl` and `expiration`,
keeping the held value. -/
def vRemoveTTL {T : Type} (c : ValueS T) : ValueS T :=
  { c with ttl := 0, expiration := 0 }

/-- Translation of `Value.EnableGetTTLRefresh`. -/
def vEnableGetTTLRefresh {T : Type} (c : ValueS T) : ValueS T :=
  { c with getRefreshes := true }

/-- A plain `LoaderFunc` whose next invocation yields `r`; the external
state is an invocation counter. -/
def plainLoader {T : Type} (r : Except Err T) : LoadFunc T Nat :=
  fun c n => (r, c, n + 1)

/-- The closure installed by `NewWithTTL`, with the underlying
`LoaderTTLFunc`'s next outcome as parameter `r`: on loader error return
it; on a non-positive duration fail with `ttl <= 0`; otherwise assign
`c.ttl` (legal because `load` holds the write lock) and return the
value.  The external state counts invocations of the underlying
loader. -/
def ttlLoader {T : Type} (r : Except Err (T × Int)) : LoadFunc T Nat :=
  fun c n =>
    match r with
    | .error e => (.error e, c, n + 1)
    | .ok (v, d) =>
      if d ≤ 0 then (.error "ttl <= 0", c, n + 1)
      else (.ok v, { c with ttl := d }, n + 1)

/-- Run `Get` at each instant of `times`, in order, against a plain
loader whose invocations all yield `r`, threading the Value state and
the loader-invocation counter. -/
def vGetSeq {T : Type} (c : ValueS T) (r : Except Err T) (n : Nat) :
    List Int → ValueS T × Nat
  | [] => (c, n)
  | t :: rest => vGetSeq (vGet c t (plainLoader r) n).val r (vGet c t (plainLoader r) n).ext rest

/-- Check that each instant in the list comes less than `d` after the
one before it, the first being compared against `prev`. -/
def spacedFrom (prev d : Int) : List Int → Bool
  | [] => true
  | t :: rest => decide (t < prev + d) && spacedFrom t d rest

/-- State of a `cache.MultiCache[K, V]` (multicache.go): the keyed
mapping of Values and the TTL policy (0 when unset). -/
structure MultiS (K V : Type) where
  values : K → Option (ValueS V)
  ttl : Int

/-- A MultiCache as returned by `NewMulti`: empty mapping, no policy;
the parameter is the TTL policy later installed with `SetTTLPolicy`
(0 when never set). -/
def multiWithPolicy (K V : Type) (p : Int) : MultiS K V :=
  ⟨fun _ => none, p⟩

/-- A keyed loader (`MultiLoaderFunc`) as consumed by `MultiCache`:
given the key and an external state, produce the (value, error) outcome
and the new external state. -/
def MultiLoadFunc (K V S : Type) : Type :=
  K → S → Except Err V × S

/-- Per-key closure installed by `populate`
(`func() (V, error) { return m.loader(key) }`): it invokes the keyed
loader and leaves the Value's own state alone. -/
def keyClosure {K V S : Type} (loader : MultiLoadFunc K V S) (key : K) :
    LoadFunc V S :=
  fun c s =>
    match loader key s with
    | (r, s') => (r, c, s')

/-- Entry constructed by `MultiCache.populate` for an absent key: a
fresh Value, with `SetTTL` applied when a TTL policy is in force. -/
def newEntry {V : Type} (policyTTL now : Int) : ValueS V :=
  if policyTTL > 0 then setTTLcore freshValue policyTTL now else freshValue

/-- Hit path of `MultiCache.Get`: run `Value.Get` on the entry stored
at `key` and write the resulting Value state back (the Go map stores a
pointer, so the in-place mutation is a map update here). -/
def mGetEntry {K V S : Type} [DecidableEq K] (loader : MultiLoadFunc K V S)
    (now : Int) (m : MultiS K V) (s : S) (key : K) (c : ValueS V) :
    Except Err V × MultiS K V × S :=
  let step := vGet c now (keyClosure loader key) s
  (step.res,
   { m with values := fun k => if k = key then some step.val else m.values k },
   step.ext)

/-- Translation of `MultiCache.Get`: on a miss, `populate` inserts a
fresh entry (double-checked under the write lock) and `Get` recurses;
the recursion always lands on the hit path, inlined here. -/
def mGet {K V S : Type} [DecidableEq K] (loader : MultiLoadFunc K V S)
    (now : Int) (m : MultiS K V) (s : S) (key : K) :
    Except Err V × MultiS K V × S :=
  match m.values key with
  | some c => mGetEntry loader now m s key c
  | none =>
    let c : ValueS V := newEntry m.ttl now
    let m' : MultiS K V :=
      { m with values := fun k => if k = key then some c else m.values k }
    mGetEntry loader now m' s key c

/-- Translation of `MultiCache.Preheat`: `Get` each key in order,
stopping at the first error, which is returned wrapped with the
offending key. -/
def mPreheat {K V S : Type} [DecidableEq K] (loader : MultiLoadFunc K V S)
    (now : Int) : MultiS K V → S → List K → Except (K × Err) Unit × MultiS K V × S
  | m, s, [] => (.ok (), m, s)
  | m, s, key :: rest =>
    match mGet loader now m s key with
    | (.error e, m', s') => (.error (key, e), m', s')
    | (.ok _, m', s') => mPreheat loader now m' s' rest

/-- Translation of `MultiCache.Invalidate`: when the key has an entry,
invalidate it (running its callback) and delete the entry from the
mapping; otherwise do nothing.  Returns the number of `onInvalidate`
invocations performed. -/
def mInvalidate {K V : Type} [DecidableEq K] (m : MultiS K V) (key : K) :
    MultiS K V × Nat :=
  match m.values key with
  | none => (m, 0)
  | some c =>
    ({ m with values := fun k => if k = key then none else m.values k },
     (vInvalidate c).2)

/-- Translation of `MultiCache.OnInvalidate`: install a callback on the
key's entry; a no-op when the key has no entry. -/
def mOnInvalidate {K V : Type} [DecidableEq K] (m : MultiS K V) (key : K) :
    MultiS K V :=
  match m.values key with
  | none => m
  | some c =>
    { m with values := fun k => if k = key then some (vOnInvalidate c) else m.values k }

/-- Translation of `MultiCache.SetTTLPolicy`: `none` models the panic
on `ttl <= 0`. -/
def mSetTTLPolicy {K V : Type} (m : MultiS K V) (ttl : Int) :
    Option (MultiS K V) :=
  if ttl ≤ 0 then none else some { m with ttl := ttl }

/-- A `MultiLoaderFunc` whose outcome for key `k` is `f k`, counting
its invocations in the external state. -/
def countingLoader {K V : Type} (f : K → Except Err V) : MultiLoadFunc K V Nat :=
  fun k n => (f k, n + 1)

/-- Entry state after `populate` (under policy `p`) followed by a
successful load of `v` at instant `now`. -/
def loadedEntry {V : Type} (v : V) (p now : Int) : ValueS V :=
  if p > 0 then ⟨some v, p, now + p, false, false⟩ else ⟨some v, 0, 0, false, false⟩

/-- Invariant carried through a preheat run: every entry present in the
mapping is a valid hit for the pure loader `f` at instant `now`. -/
def preheatInv {K V : Type} (f : K → Except Err V) (now : Int) (m : MultiS K V) :
    Prop :=
  ∀ k c, m.values k = some c →
    (∃ v, f k = .ok v ∧ c.val = some v) ∧
    cacheExpired c now = false ∧ c.getRefreshes = false

/-- State of a `buffered.MultiCache[K, V]` (buffered/buffered.go): the
read cache and the write buffer.  The write buffer's Go values are
pointers to `TypedAtomic[V]` cells; a cell is collapsed here to its
current content, and a `Store` through the pointer becomes an update of
the entry's held value. -/
structure BufMultiS (K V : Type) where
  readCache : MultiS K V
  writeBuffer : MultiS K V

/-- A buffered MultiCache as returned by `buffered.NewMulti`: both
inner caches empty, no TTL policy. -/
def bufNew (K V : Type) : BufMultiS K V :=
  ⟨multiWithPolicy K V 0, multiWithPolicy K V 0⟩

/-- Loader of the write buffer (buffered.go, `NewMulti`): allocate a
new atom holding the zero value of V; it never fails.  `zero` is Go's
`var mt V`. -/
def atomLoader {K V : Type} (zero : V) : MultiLoadFunc K V Unit :=
  fun _ s => (.ok zero, s)

/-- Loader of the read cache (buffered.go, `NewMulti`): read through to
the write buffer via its `Get`, then `Load` the returned atom.  The
external state it threads is the write buffer itself. -/
def readLoader {K V : Type} [DecidableEq K] (zero : V) (now : Int) :
    MultiLoadFunc K V (MultiS K V) :=
  fun key wb =>
    match mGet (atomLoader zero) now wb () key with
    | (.error e, wb', _) => (.error e, wb')
    | (.ok a, wb', _) => (.ok a, wb')

/-- Translation of `buffered.MultiCache.Get`: delegate to the read
cache, whose loader reads through to the write buffer. -/
def bufGet {K V : Type} [DecidableEq K] (m : BufMultiS K V) (zero : V)
    (now : Int) (key : K) : Except Err V × BufMultiS K V :=
  match mGet (readLoader zero now) now m.readCache m.writeBuffer key with
  | (r, rc', wb') => (r, ⟨rc', wb'⟩)

/-- Translation of `buffered.MultiCache.MustGet`: `none` models the
panic on an error from Get. -/
def bufMustGet {K V : Type} [DecidableEq K] (m : BufMultiS K V) (zero : V)
    (now : Int) (key : K) : Option V :=
  match bufGet m zero now key with
  | (.ok v, _) => some v
  | (.error _, _) => none

/-- Translation of `buffered.MultiCache.Invalidate`: delegate to the
read cache. -/
def bufInvalidate {K V : Type} [DecidableEq K] (m : BufMultiS K V) (key : K) :
    BufMultiS K V :=
  ⟨(mInvalidate m.readCache key).1, m.writeBuffer⟩

/-- Translation of `buffered.MultiCache.Set`: `MustGet` the key's atom
from the write buffer (creating it holding the zero value when absent),
`Store` the new value into that cell — the cell returned by Get is the
one held in the buffer's entry, so the store updates that entry's held
value — then invalidate the read-cache entry for the key. -/
def bufSet {K V : Type} [DecidableEq K] (m : BufMultiS K V) (zero : V)
    (now : Int) (key : K) (v : V) : BufMultiS K V :=
  match mGet (atomLoader zero) now m.writeBuffer () key with
  | (_, wb', _) =>
    let wb'' : MultiS K V :=
      { wb' with values := fun k =>
          if k = key then (wb'.values key).map (fun c => { c with val := some v })
          else wb'.values k }
    ⟨(mInvalidate m.readCache key).1, wb''⟩

/-- Translation of `buffered.MultiCache.Unset`: invalidate the key in
the write buffer and in the read cache. -/
def bufUnset {K V : Type} [DecidableEq K] (m : BufMultiS K V) (key : K) :
    BufMultiS K V :=
  ⟨(mInvalidate m.readCache key).1, (mInvalidate m.writeBuffer key).1⟩

/-- Write-buffer well-formedness: no TTL policy and no entry with a
positive TTL — always true of the write buffer of a buffered
MultiCache, which never receives a TTL policy. -/
def entriesTTL0 {K V : Type} (wb : MultiS K V) : Prop :=
  wb.ttl ≤ 0 ∧ ∀ k c, wb.values k = some c → c.ttl ≤ 0

/-- Read-your-writes invariant of a buffered MultiCache for one key:
the write buffer's cell for the key (when present) never expires and
holds `v` — or is unloaded with `v` the zero value — an absent cell
meaning `v` is the zero value; and any read-cache entry for the key is
either unloaded or holds `v`. -/
def cellHolds {K V : Type} [DecidableEq K] (m : BufMultiS K V) (zero v : V)
    (key : K) : Prop :=
  (match m.writeBuffer.values key with
   | none => v = zero
   | some c => (c.val = some v ∨ (c.val = none ∧ v = zero)) ∧ c.ttl ≤ 0) ∧
  m.writeBuffer.ttl ≤ 0 ∧
  (∀ c, m.readCache.values key = some c → c.val = none ∨ c.val = some v)

/-- One operation a client may perform against a buffered MultiCache,
carrying the instant at which it runs where time matters. -/
inductive BufOp (K V : Type) where
  | get (key : K) (now : Int)
  | set (key : K) (v : V) (now : Int)
  | unset (key : K)
  | inval (key : K)

/-- Whether an operation is a Set or Unset of the given key. -/
def writesKey {K V : Type} [DecidableEq K] (op : BufOp K V) (key : K) : Bool :=
  match op with
  | .set k _ _ => k = key
  | .unset k => k = key
  | _ => false

/-- Run a list of operations against a buffered MultiCache, collecting
each Get's key and outcome in order. -/
def bufRun {K V : Type} [DecidableEq K] (zero : V) :
    BufMultiS K V → List (BufOp K V) → BufMultiS K V × List (K × Except Err V)
  | m, [] => (m, [])
  | m, .get key now :: rest =>
    ((bufRun zero (bufGet m zero now key).2 rest).1,
     (key, (bufGet m zero now key).1) :: (bufRun zero (bufGet m zero now key).2 rest).2)
  | m, .set key v now :: rest => bufRun zero (bufSet m zero now key v) rest
  | m, .unset key :: rest => bufRun zero (bufUnset m key) rest
  | m, .inval key :: rest => bufRun zero (bufInvalidate m key) rest

/-- State of a file-backed reader cache built by `file.NewReaderCache`
(file/reader.go): the wrapped Value and whether the context the watcher
goroutine runs under has been cancelled.  `NewReaderCache` derives that
context with `context.WithCancel` and keeps the cancel function inside
the loader closure. -/
structure ReaderCacheS (T : Type) where
  cacheVal : ValueS T
  cancelled : Bool
deriving DecidableEq, Repr

/-- A reader cache as returned by `NewReaderCache` on a regular file: a
lazy Value and a live context. -/
def readerCacheNew {T : Type} : ReaderCacheS T :=
  ⟨freshValue, false⟩

/-- The loader closure built in `NewReaderCache` (reader.go lines
32-49), the outcome of opening and reading the watched file being the
parameter `r`: on failure it calls `cancel()` — cancelling the watcher
goroutine's context — and returns the error; on success it returns the
decoded value. -/
def readerLoadFunc {T : Type} (r : Except Err T) : LoadFunc T Bool :=
  fun c cancelled =>
    match r with
    | .error e => (.error e, c, true)
    | .ok t => (.ok t, c, cancelled)

/-- Translation of `Get` on the wrapped Value of a reader cache, with
the outcome of this call's file read as parameter. -/
def readerGet {T : Type} (st : ReaderCacheS T) (now : Int) (r : Except Err T) :
    Except Err T × ReaderCacheS T :=
  ((vGet st.cacheVal now (readerLoadFunc r) st.cancelled).res,
   ⟨(vGet st.cacheVal now (readerLoadFunc r) st.cancelled).val,
    (vGet st.cacheVal now (readerLoadFunc r) st.cancelled).ext⟩)

/-- One filesystem event reaching the watcher goroutine (reader.go
lines 74-90): once the context is cancelled the loop has returned and
the event is not processed; otherwise an event whose path matches the
watched file invalidates the Value, and any other event is only
logged. -/
def watcherEvent {T : Type} (st : ReaderCacheS T) (evtPath filePath : String) :
    ReaderCacheS T :=
  if st.cancelled then st
  else if evtPath = filePath then ⟨(vInvalidate st.cacheVal).1, st.cancelled⟩
  else st

/-- Cancellation of the context by its owner (the caller that supplied
the parent context). -/
def ownerCancel {T : Type} (st : ReaderCacheS T) : ReaderCacheS T :=
  ⟨st.cacheVal, true⟩

/-- Evaluation check: a fresh Value loads once and caches. -/
example : (vGet (freshValue (T := Nat)) 0 (plainLoader (.ok 7)) 0).res = .ok 7 := rfl

/-- C1: for every Value on which Get reaches the loader (no valid held
value: `val` absent, or held but expired) and whose loader returns an
error, Get returns that error with no value, the Value's state is
unchanged (`val` stays as it was — in particular absent stays absent —
and the expiration is not touched), and any later Get at the same or a
later instant invokes the loader again: the error is never cached. -/
theorem get_load_error_leaves_state_unchanged {T : Type}
    (c : ValueS T) (now : Int) (e : Err) (n : Nat)
    (hmiss : c.val = none ∨ cacheExpired c now = true) :
    vGet c now (plainLoader (.error e)) n = ⟨.error e, c, n + 1, 0⟩ ∧
    ∀ (now' : Int) (r : Except Err T) (n' : Nat), now ≤ now' →
      (vGet c now' (plainLoader r) n').ext = n' + 1 := by
  have hload : ∀ (now₁ : Int) (r : Except Err T) (n₁ : Nat),
      (vLoadMiss c now₁ (plainLoader r) n₁).ext = n₁ + 1 := by
    intro now₁ r n₁
    cases r <;> simp [vLoadMiss, plainLoader]
  constructor
  · rcases hmiss with h | h
    · simp [vGet, vLoad, h, vLoadMiss, plainLoader]
    · rcases hv : c.val with _ | v
      · simp [vGet, vLoad, hv, vLoadMiss, plainLoader]
      · simp [vGet, vLoad, hv, h, vLoadMiss, plainLoader]
  · intro now' r n' hle
    rcases hmiss with h | h
    · rcases hr : r with e' | v' <;>
        simp [vGet, vLoad, h, vLoadMiss, plainLoader]
    · have hexp : cacheExpired c now' = true := by
        unfold cacheExpired at h ⊢
        by_cases httl : c.ttl ≤ 0
        · simp [httl] at h
        · simp [httl] at h ⊢
          omega
      rcases hv : c.val with _ | v
      · rcases hr : r with e' | v' <;>
          simp [vGet, vLoad, hv, vLoadMiss, plainLoader]
      · rcases hr : r with e' | v' <;>
          simp [vGet, vLoad, hv, hexp, vLoadMiss, plainLoader]

/-- Witness for C1 at a concrete input: a fresh Value whose loader
fails with "boom". -/
theorem get_load_error_leaves_state_unchanged_witness :
    vGet (freshValue (T := Nat)) 0 (plainLoader (.error "boom")) 0 =
      ⟨.error "boom", freshValue, 1, 0⟩ ∧
    (vGet (freshValue (T := Nat)) 5 (plainLoader (.error "boom")) 1).ext = 2 := by
  have h := get_load_error_leaves_state_unchanged (freshValue (T := Nat)) 0 "boom" 0
    (Or.inl rfl)
  exact ⟨h.1, h.2 5 (.error "boom") 1 (by decide)⟩

/-- C2: Invalidate unconditionally clears the held value and the
expiration and invokes the installed `onInvalidate` callback exactly
once (zero times when none is installed); and no Get — in particular a
Get that reloads because the TTL elapsed — ever invokes the callback:
`Get`'s paths perform zero `onInvalidate` invocations. -/
theorem invalidate_clears_and_signals {T : Type} (c : ValueS T) :
    (vInvalidate c).1.val = none ∧
    (vInvalidate c).1.expiration = 0 ∧
    (vInvalidate c).2 = (if c.hasOnInvalidate then 1 else 0) ∧
    ∀ (S : Type) (now : Int) (f : LoadFunc T S) (s : S),
      (vGet c now f s).invCalls = 0 := by
  refine ⟨rfl, rfl, rfl, ?_⟩
  intro S now f s
  rcases hv : c.val with _ | v
  · simp only [vGet, hv, vLoad]
    rcases hf : f c s with ⟨r, c1, s1⟩
    cases r <;> simp [vLoadMiss, hf]
  · simp only [vGet, hv, vLoad]
    by_cases hexp : cacheExpired c now
    · rcases hf : f c s with ⟨r, c1, s1⟩
      cases r <;> simp [hexp, hv, vLoadMiss, hf]
    · simp [hexp]

/-- Helper invariant for C3: once a value is held with `ttl = d`,
`getRefreshes` on, and `expiration = prev + d`, a run of Gets each less
than `d` after its predecessor performs no loader invocation, keeps the
value, and leaves the expiration `d` past the last call. -/
theorem vGetSeq_refresh {T : Type} (d : Int) (v : T) (hd : 0 < d) :
    ∀ (ts : List Int) (prev : Int) (c : ValueS T) (n : Nat),
      c.val = some v → c.ttl = d → c.getRefreshes = true →
      c.expiration = prev + d → spacedFrom prev d ts = true →
      (vGetSeq c (.ok v) n ts).2 = n ∧
      (vGetSeq c (.ok v) n ts).1.val = some v ∧
      (vGetSeq c (.ok v) n ts).1.expiration = ts.getLastD prev + d := by
  intro ts
  induction ts with
  | nil =>
    intro prev c n hval httl _ hexp _
    exact ⟨rfl, hval, by simpa [vGetSeq, List.getLastD] using hexp⟩
  | cons t rest ih =>
    intro prev c n hval httl href hexp hsp
    simp only [spacedFrom, Bool.and_eq_true, decide_eq_true_eq] at hsp
    obtain ⟨hlt, hsp⟩ := hsp
    have hnexp : cacheExpired c t = false := by
      unfold cacheExpired
      have : ¬ c.ttl ≤ 0 := by omega
      simp [this]
      omega
    have hstep : vGet c t (plainLoader (.ok v)) n =
        ⟨.ok v, { c with expiration := t + c.ttl }, n, 0⟩ := by
      simp [vGet, hval, hnexp, href, refreshTimer, show ¬ c.ttl ≤ 0 by omega]
    have hgl : (t :: rest).getLastD prev = rest.getLastD t := by
      cases rest <;> simp [List.getLastD]
    rw [hgl]
    have := ih t { c with expiration := t + c.ttl } n hval httl href (by simp [httl]) hsp
    simpa [vGetSeq, hstep] using this

/-- C3: for a Value with `SetTTL d` (`d > 0`) followed by
`EnableGetTTLRefresh` and no value held yet, a run of Gets starting at
`t₀` whose consecutive calls are each less than `d` apart invokes the
loader exactly once (the first load), every call succeeding with the
loaded value, and each call pushes the expiration to its own instant
plus `d` (so the final expiration is `d` past the last call). -/
theorem refresh_on_read_single_load {T : Type}
    (c₀ c₁ : ValueS T) (d s t₀ : Int) (v : T) (ts : List Int)
    (hval : c₀.val = none)
    (hset : vSetTTL c₀ d s = some c₁)
    (hspace : spacedFrom t₀ d ts = true) :
    (vGetSeq (vEnableGetTTLRefresh c₁) (.ok v) 0 (t₀ :: ts)).2 = 1 ∧
    (vGetSeq (vEnableGetTTLRefresh c₁) (.ok v) 0 (t₀ :: ts)).1.val = some v ∧
    (vGetSeq (vEnableGetTTLRefresh c₁) (.ok v) 0 (t₀ :: ts)).1.expiration =
      ts.getLastD t₀ + d := by
  have hd : 0 < d := by
    by_contra h
    simp [vSetTTL, show d ≤ 0 by omega] at hset
  have hc₁ : c₁ = setTTLcore c₀ d s := by
    simp [vSetTTL, show ¬ d ≤ 0 by omega] at hset
    exact hset.symm
  set c := vEnableGetTTLRefresh c₁ with hc
  have hcval : c.val = none := by simp [hc, hc₁, vEnableGetTTLRefresh, setTTLcore, hval]
  have hcttl : c.ttl = d := by simp [hc, hc₁, vEnableGetTTLRefresh, setTTLcore]
  have hcref : c.getRefreshes = true := by simp [hc, vEnableGetTTLRefresh]
  have hstep : vGet c t₀ (plainLoader (.ok v)) 0 =
      ⟨.ok v, { c with val := some v, expiration := t₀ + c.ttl }, 1, 0⟩ := by
    simp [vGet, hcval, vLoad, vLoadMiss, plainLoader, show c.ttl > 0 by omega]
  have := vGetSeq_refresh d v hd ts t₀
      { c with val := some v, expiration := t₀ + c.ttl } 1
      rfl hcttl hcref (by simp [hcttl]) hspace
  simpa [vGetSeq, hstep, List.getLastD_cons] using this

/-- Witness for C3 at a concrete input: TTL 10 set at instant 0, Gets
at instants 1, 4, 12 (each gap below 10): one load, final expiration
22. -/
theorem refresh_on_read_single_load_witness :
    (vGetSeq (vEnableGetTTLRefresh (setTTLcore (freshValue (T := Nat)) 10 0))
        (.ok 5) 0 [1, 4, 12]).2 = 1 := by
  have h := refresh_on_read_single_load (freshValue (T := Nat))
      (setTTLcore freshValue 10 0) 10 0 1 5 [4, 12]
      rfl (by simp [vSetTTL]) (by decide)
  exact h.1

/-- C4: for a Value whose loader supplies the TTL (`NewWithTTL`), a Get
that reaches the loader and receives duration `d ≤ 0` (with no error)
fails with the invalid-TTL error `ttl <= 0`, the Value's state is
unchanged (the value remains unset when it was unset), and when the
value is unset every subsequent Get attempts the load again. -/
theorem ttl_loader_nonpositive_fails {T : Type}
    (c : ValueS T) (now : Int) (v : T) (d : Int) (n : Nat)
    (hd : d ≤ 0) (hmiss : c.val = none ∨ cacheExpired c now = true) :
    vGet c now (ttlLoader (.ok (v, d))) n = ⟨.error "ttl <= 0", c, n + 1, 0⟩ ∧
    (c.val = none →
      ∀ (now' : Int) (r : Except Err (T × Int)) (n' : Nat),
        (vGet c now' (ttlLoader r) n').ext = n' + 1) := by
  have hmissStep : vLoadMiss c now (ttlLoader (.ok (v, d))) n =
      ⟨.error "ttl <= 0", c, n + 1, 0⟩ := by
    simp [vLoadMiss, ttlLoader, hd]
  constructor
  · rcases hmiss with h | h
    · simp [vGet, vLoad, h, hmissStep]
    · rcases hv : c.val with _ | w
      · simp [vGet, vLoad, hv, hmissStep]
      · simp [vGet, vLoad, hv, h, hmissStep]
  · intro hnone now' r n'
    rcases r with e' | ⟨v', d'⟩
    · simp [vGet, vLoad, hnone, vLoadMiss, ttlLoader]
    · by_cases hd' : d' ≤ 0 <;>
        simp [vGet, vLoad, hnone, vLoadMiss, ttlLoader, hd']

/-- Witness for C4 at a concrete input: a fresh `NewWithTTL` Value
whose loader returns duration 0. -/
theorem ttl_loader_nonpositive_fails_witness :
    vGet (freshValue (T := Nat)) 3 (ttlLoader (.ok (7, 0))) 0 =
      ⟨.error "ttl <= 0", freshValue, 1, 0⟩ ∧
    (vGet (freshValue (T := Nat)) 9 (ttlLoader (.ok (7, -1))) 1).ext = 2 := by
  have h := ttl_loader_nonpositive_fails (freshValue (T := Nat)) 3 7 0 0
      (by decide) (Or.inl rfl)
  exact ⟨h.1, h.2 rfl 9 (.ok (7, -1)) 1⟩

/-- C10: every successful load through the `NewWithTTL` closure
overwrites the stored `ttl` with the duration the loader returned on
that run (and sets the expiration from it); in particular, after
`SetTTL d'` installs `d'`, the very next reload (here: after an
invalidation) replaces it with the loader-supplied duration `d` — the
loader's TTL wins over `SetTTL`. -/
theorem ttl_loader_overrides_setttl {T : Type} (v : T) (d : Int) (hd : 0 < d) :
    (∀ (c : ValueS T) (now : Int) (n : Nat),
      c.val = none ∨ cacheExpired c now = true →
      (vGet c now (ttlLoader (.ok (v, d))) n).res = .ok v ∧
      (vGet c now (ttlLoader (.ok (v, d))) n).val.ttl = d ∧
      (vGet c now (ttlLoader (.ok (v, d))) n).val.val = some v ∧
      (vGet c now (ttlLoader (.ok (v, d))) n).val.expiration = now + d) ∧
    (∀ (c c₁ : ValueS T) (d' now₁ now₂ : Int) (n : Nat),
      vSetTTL c d' now₁ = some c₁ →
      c₁.ttl = d' ∧
      (vGet ((vInvalidate c₁).1) now₂ (ttlLoader (.ok (v, d))) n).val.ttl = d) := by
  have hmain : ∀ (c : ValueS T) (now : Int) (n : Nat),
      c.val = none ∨ cacheExpired c now = true →
      (vGet c now (ttlLoader (.ok (v, d))) n).res = .ok v ∧
      (vGet c now (ttlLoader (.ok (v, d))) n).val.ttl = d ∧
      (vGet c now (ttlLoader (.ok (v, d))) n).val.val = some v ∧
      (vGet c now (ttlLoader (.ok (v, d))) n).val.expiration = now + d := by
    intro c now n hmiss
    have hmissStep : vLoadMiss c now (ttlLoader (.ok (v, d))) n =
        ⟨.ok v, { c with ttl := d, val := some v, expiration := now + d }, n + 1, 0⟩ := by
      simp [vLoadMiss, ttlLoader, show ¬ d ≤ 0 by omega, show d > 0 by omega]
    rcases hmiss with h | h
    · simp [vGet, vLoad, h, hmissStep]
    · rcases hv : c.val with _ | w
      · simp [vGet, vLoad, hv, hmissStep]
      · simp [vGet, vLoad, hv, h, hmissStep]
  refine ⟨hmain, ?_⟩
  intro c c₁ d' now₁ now₂ n hset
  have hd' : ¬ d' ≤ 0 := by
    by_contra h
    simp [vSetTTL, h] at hset
  have hc₁ : c₁ = setTTLcore c d' now₁ := by
    simp [vSetTTL, hd'] at hset
    exact hset.symm
  refine ⟨by simp [hc₁, setTTLcore], ?_⟩
  exact (hmain ((vInvalidate c₁).1) now₂ n (Or.inl rfl)).2.1

/-- Witness for C10 at a concrete input: SetTTL 60 at instant 0, then
invalidate and reload with a loader-supplied TTL of 5. -/
theorem ttl_loader_overrides_setttl_witness :
    (setTTLcore (freshValue (T := Nat)) 60 0).ttl = 60 ∧
    (vGet ((vInvalidate (setTTLcore (freshValue (T := Nat)) 60 0)).1) 2
        (ttlLoader (.ok (7, 5))) 0).val.ttl = 5 := by
  have h := (ttl_loader_overrides_setttl (T := Nat) 7 5 (by decide)).2
      freshValue (setTTLcore freshValue 60 0) 60 0 2 0 (by simp [vSetTTL])
  exact h

/-- Helper: a Get on a present entry holding an unexpired value with
`getRefreshes` off returns the value, leaves the cache unchanged, and
does not invoke the loader. -/
theorem mGet_hit {K V : Type} [DecidableEq K] (f : K → Except Err V) (now : Int)
    (m : MultiS K V) (n : Nat) (key : K) (c : ValueS V) (v : V)
    (hentry : m.values key = some c) (hval : c.val = some v)
    (hexp : cacheExpired c now = false) (href : c.getRefreshes = false) :
    mGet (countingLoader f) now m n key = (.ok v, m, n) := by
  have hm : ({ m with values := fun k => if k = key then some c else m.values k } :
      MultiS K V) = m := by
    cases m with
    | mk values ttl =>
      simp only [MultiS.mk.injEq, and_true]
      funext k
      by_cases hk : k = key
      · simp [hk, hentry.symm]
      · simp [hk]
  simp [mGet, hentry, mGetEntry, vGet, hval, hexp, href, hm]

/-- Helper: a Get on an absent key whose loader succeeds with `v`
populates a fresh entry, loads it, and invokes the loader once. -/
theorem mGet_miss_ok {K V : Type} [DecidableEq K] (f : K → Except Err V) (now : Int)
    (m : MultiS K V) (n : Nat) (key : K) (v : V)
    (hmiss : m.values key = none) (hf : f key = .ok v) :
    mGet (countingLoader f) now m n key =
      (.ok v,
       { m with values := fun k =>
           if k = key then some (loadedEntry v m.ttl now) else m.values k },
       n + 1) := by
  by_cases hp : m.ttl > 0
  · simp [mGet, hmiss, mGetEntry, newEntry, hp, vGet, vLoad, vLoadMiss, keyClosure,
      countingLoader, hf, setTTLcore, freshValue, loadedEntry]
    funext k
    by_cases hk : k = key <;> simp [hk]
  · simp [mGet, hmiss, mGetEntry, newEntry, hp, vGet, vLoad, vLoadMiss, keyClosure,
      countingLoader, hf, freshValue, loadedEntry]
    funext k
    by_cases hk : k = key <;> simp [hk]

/-- Helper: a Get on an absent key whose loader fails returns the
error; the populated (still empty) entry remains in the mapping and the
loader was invoked once. -/
theorem mGet_miss_err {K V : Type} [DecidableEq K] (f : K → Except Err V) (now : Int)
    (m : MultiS K V) (n : Nat) (key : K) (e : Err)
    (hmiss : m.values key = none) (hf : f key = .error e) :
    mGet (countingLoader f) now m n key =
      (.error e,
       { m with values := fun k =>
           if k = key then some (newEntry m.ttl now) else m.values k },
       n + 1) := by
  by_cases hp : m.ttl > 0
  · simp [mGet, hmiss, mGetEntry, newEntry, hp, vGet, vLoad, vLoadMiss, keyClosure,
      countingLoader, hf, setTTLcore, freshValue]
    funext k
    by_cases hk : k = key <;> simp [hk]
  · simp [mGet, hmiss, mGetEntry, newEntry, hp, vGet, vLoad, vLoadMiss, keyClosure,
      countingLoader, hf, freshValue]
    funext k
    by_cases hk : k = key <;> simp [hk]

/-- Helper: a loaded entry is a valid cache hit at the instant of its
load. -/
theorem loadedEntry_good {V : Type} (v : V) (p now : Int) :
    (loadedEntry v p now).val = some v ∧
    cacheExpired (loadedEntry v p now) now = false ∧
    (loadedEntry v p now).getRefreshes = false := by
  by_cases hp : p > 0
  · refine ⟨by simp [loadedEntry, hp], ?_, by simp [loadedEntry, hp]⟩
    simp [loadedEntry, hp, cacheExpired]
    omega
  · exact ⟨by simp [loadedEntry, hp], by simp [loadedEntry, hp, cacheExpired], by
      simp [loadedEntry, hp]⟩

/-- Helper: a preheat over keys whose loads all succeed returns ok and
invokes the loader once per distinct key not already cached. -/
theorem mPreheat_all_ok {K V : Type} [DecidableEq K] (f : K → Except Err V)
    (now : Int) :
    ∀ (keys : List K) (m : MultiS K V) (n : Nat),
      (∀ k ∈ keys, ∃ v, f k = .ok v) → preheatInv f now m →
      (mPreheat (countingLoader f) now m n keys).1 = .ok () ∧
      (mPreheat (countingLoader f) now m n keys).2.2 =
        n + (keys.toFinset.filter (fun k => (m.values k).isNone)).card := by
  intro keys
  induction keys with
  | nil =>
    intro m n _ _
    exact ⟨rfl, by simp [mPreheat]⟩
  | cons key rest ih =>
    intro m n hok hinv
    rcases hentry : m.values key with _ | c
    · obtain ⟨v, hv⟩ := hok key (by simp)
      have hstep := mGet_miss_ok f now m n key v hentry hv
      set m' : MultiS K V :=
        { m with values := fun k =>
            if k = key then some (loadedEntry v m.ttl now) else m.values k } with hm'
      have hinv' : preheatInv f now m' := by
        intro k c hk
        by_cases hkk : k = key
        · have hkey : m'.values k = some (loadedEntry v m.ttl now) := by
            rw [hm']
            simp [hkk]
          obtain rfl : c = loadedEntry v m.ttl now := by
            injection hk.symm.trans hkey
          obtain ⟨h1, h2, h3⟩ := loadedEntry_good v m.ttl now
          exact ⟨⟨v, hkk ▸ hv, h1⟩, h2, h3⟩
        · have hkey : m'.values k = m.values k := by
            rw [hm']
            simp [hkk]
          rw [hkey] at hk
          exact hinv k c hk
      have hrec := ih m' (n + 1) (fun k hk => hok k (by simp [hk])) hinv'
      have hred : mPreheat (countingLoader f) now m n (key :: rest) =
          mPreheat (countingLoader f) now m' (n + 1) rest := by
        simp [mPreheat, hstep]
      refine ⟨by rw [hred]; exact hrec.1, ?_⟩
      rw [hred, hrec.2]
      have hpkey : (m.values key).isNone = true := by simp [hentry]
      have hfins : (key :: rest).toFinset.filter (fun k => (m.values k).isNone) =
          insert key (rest.toFinset.filter (fun k => (m.values k).isNone)) := by
        rw [List.toFinset_cons, Finset.filter_insert, if_pos hpkey]
      have herase : rest.toFinset.filter (fun k => (m'.values k).isNone) =
          (rest.toFinset.filter (fun k => (m.values k).isNone)).erase key := by
        ext x
        by_cases hx : x = key <;>
          simp [hm', Finset.mem_erase, Finset.mem_filter, hx]
      rw [herase, hfins]
      set t := rest.toFinset.filter (fun k => (m.values k).isNone) with ht
      by_cases hkey : key ∈ t
      · rw [Finset.card_erase_of_mem hkey, Finset.insert_eq_self.mpr hkey]
        have : 0 < t.card := Finset.card_pos.mpr ⟨key, hkey⟩
        omega
      · rw [Finset.erase_eq_of_not_mem hkey, Finset.card_insert_of_not_mem hkey]
        omega
    · obtain ⟨⟨v, hv, hcval⟩, hexp, href⟩ := hinv key c hentry
      have hstep := mGet_hit f now m n key c v hentry hcval hexp href
      have hred : mPreheat (countingLoader f) now m n (key :: rest) =
          mPreheat (countingLoader f) now m n rest := by
        simp [mPreheat, hstep]
      have hrec := ih m n (fun k hk => hok k (by simp [hk])) hinv
      refine ⟨by rw [hred]; exact hrec.1, ?_⟩
      rw [hred, hrec.2]
      have hpkey : ¬ (m.values key).isNone = true := by simp [hentry]
      rw [List.toFinset_cons, Finset.filter_insert, if_neg hpkey]

/-- Helper: a preheat whose prefix loads all succeed and whose next key
fails stops at that key, wrapping the error with it; the loader ran
once per distinct fresh prefix key plus once for the failing key, and
the keys after the failure are not processed at all. -/
theorem mPreheat_first_err {K V : Type} [DecidableEq K] (f : K → Except Err V)
    (now : Int) (e : Err) (k : K) (hfk : f k = .error e) :
    ∀ (pre : List K) (post : List K) (m : MultiS K V) (n : Nat),
      (∀ k' ∈ pre, ∃ v, f k' = .ok v) → preheatInv f now m →
      (mPreheat (countingLoader f) now m n (pre ++ k :: post)).1 = .error (k, e) ∧
      (mPreheat (countingLoader f) now m n (pre ++ k :: post)).2.2 =
        n + (pre.toFinset.filter (fun k' => (m.values k').isNone)).card + 1 := by
  intro pre
  induction pre with
  | nil =>
    intro post m n _ hinv
    rcases hk : m.values k with _ | c
    · have hstep := mGet_miss_err f now m n k e hk hfk
      exact ⟨by simp [mPreheat, hstep], by simp [mPreheat, hstep]⟩
    · obtain ⟨⟨v, hv, _⟩, _, _⟩ := hinv k c hk
      rw [hfk] at hv
      cases hv
  | cons key rest ih =>
    intro post m n hok hinv
    rcases hentry : m.values key with _ | c
    · obtain ⟨v, hv⟩ := hok key (by simp)
      have hstep := mGet_miss_ok f now m n key v hentry hv
      set m' : MultiS K V :=
        { m with values := fun x =>
            if x = key then some (loadedEntry v m.ttl now) else m.values x } with hm'
      have hinv' : preheatInv f now m' := by
        intro x c hx
        by_cases hxk : x = key
        · have hkey : m'.values x = some (loadedEntry v m.ttl now) := by
            rw [hm']
            simp [hxk]
          obtain rfl : c = loadedEntry v m.ttl now := by
            injection hx.symm.trans hkey
          obtain ⟨h1, h2, h3⟩ := loadedEntry_good v m.ttl now
          exact ⟨⟨v, hxk ▸ hv, h1⟩, h2, h3⟩
        · have hkey : m'.values x = m.values x := by
            rw [hm']
            simp [hxk]
          rw [hkey] at hx
          exact hinv x c hx
      have hrec := ih post m' (n + 1) (fun x hx => hok x (by simp [hx])) hinv'
      have hred : mPreheat (countingLoader f) now m n ((key :: rest) ++ k :: post) =
          mPreheat (countingLoader f) now m' (n + 1) (rest ++ k :: post) := by
        simp [mPreheat, hstep]
      refine ⟨by rw [hred]; exact hrec.1, ?_⟩
      rw [hred, hrec.2]
      have hpkey : (m.values key).isNone = true := by simp [hentry]
      have hfins : (key :: rest).toFinset.filter (fun x => (m.values x).isNone) =
          insert key (rest.toFinset.filter (fun x => (m.values x).isNone)) := by
        rw [List.toFinset_cons, Finset.filter_insert, if_pos hpkey]
      have herase : rest.toFinset.filter (fun x => (m'.values x).isNone) =
          (rest.toFinset.filter (fun x => (m.values x).isNone)).erase key := by
        ext x
        by_cases hx : x = key <;>
          simp [hm', Finset.mem_erase, Finset.mem_filter, hx]
      rw [herase, hfins]
      set t := rest.toFinset.filter (fun x => (m.values x).isNone) with ht
      by_cases hkey : key ∈ t
      · rw [Finset.card_erase_of_mem hkey, Finset.insert_eq_self.mpr hkey]
        have : 0 < t.card := Finset.card_pos.mpr ⟨key, hkey⟩
        omega
      · rw [Finset.erase_eq_of_not_mem hkey, Finset.card_insert_of_not_mem hkey]
        omega
    · obtain ⟨⟨v, hv, hcval⟩, hexp, href⟩ := hinv key c hentry
      have hstep := mGet_hit f now m n key c v hentry hcval hexp href
      have hred : mPreheat (countingLoader f) now m n ((key :: rest) ++ k :: post) =
          mPreheat (countingLoader f) now m n (rest ++ k :: post) := by
        simp [mPreheat, hstep]
      have hrec := ih post m n (fun x hx => hok x (by simp [hx])) hinv
      refine ⟨by rw [hred]; exact hrec.1, ?_⟩
      rw [hred, hrec.2]
      have hpkey : ¬ (m.values key).isNone = true := by simp [hentry]
      rw [List.toFinset_cons, Finset.filter_insert, if_neg hpkey]

/-- C5: Preheat Gets each key in list order; when every key's load
succeeds it returns ok and duplicate keys collapse — the loader runs
exactly once per distinct key.  When all keys of a prefix succeed and
the next key fails, it stops at that key, returning the error wrapped
with the offending key; the keys after it are not loaded (the result
and the loader count are the same for every such tail). -/
theorem preheat_order_shortcircuit_dedup {K V : Type} [DecidableEq K]
    (f : K → Except Err V) (now p : Int) :
    (∀ keys : List K, (∀ k ∈ keys, ∃ v, f k = .ok v) →
      (mPreheat (countingLoader f) now (multiWithPolicy K V p) 0 keys).1 = .ok () ∧
      (mPreheat (countingLoader f) now (multiWithPolicy K V p) 0 keys).2.2 =
        keys.toFinset.card) ∧
    (∀ (pre post : List K) (k : K) (e : Err),
      (∀ k' ∈ pre, ∃ v, f k' = .ok v) → f k = .error e →
      (mPreheat (countingLoader f) now (multiWithPolicy K V p) 0 (pre ++ k :: post)).1 =
        .error (k, e) ∧
      (mPreheat (countingLoader f) now (multiWithPolicy K V p) 0 (pre ++ k :: post)).2.2 =
        pre.toFinset.card + 1) := by
  have hinv : preheatInv f now (multiWithPolicy K V p) := by
    intro k c hk
    simp [multiWithPolicy] at hk
  constructor
  · intro keys hok
    have h := mPreheat_all_ok f now keys (multiWithPolicy K V p) 0 hok hinv
    refine ⟨h.1, ?_⟩
    rw [h.2]
    have hfe : keys.toFinset.filter
        (fun k => ((multiWithPolicy K V p).values k).isNone) = keys.toFinset := by
      apply Finset.filter_true_of_mem
      intro x _
      simp [multiWithPolicy]
    rw [hfe]
    omega
  · intro pre post k e hok hfk
    have h := mPreheat_first_err f now e k hfk pre post (multiWithPolicy K V p) 0 hok hinv
    refine ⟨h.1, ?_⟩
    rw [h.2]
    have hfe : pre.toFinset.filter
        (fun k' => ((multiWithPolicy K V p).values k').isNone) = pre.toFinset := by
      apply Finset.filter_true_of_mem
      intro x _
      simp [multiWithPolicy]
    rw [hfe]
    omega

/-- Witness for C5 at concrete inputs: preheating [1, 2, 1] loads twice
and succeeds; preheating [1, 2, 3, 9] with key 3 failing stops at 3
after three loads, wrapping the error with the key. -/
theorem preheat_order_shortcircuit_dedup_witness :
    (mPreheat (countingLoader (fun k : Nat => if k = 3 then .error "boom" else .ok k))
        0 (multiWithPolicy Nat Nat 0) 0 [1, 2, 1]).1 = .ok () ∧
    (mPreheat (countingLoader (fun k : Nat => if k = 3 then .error "boom" else .ok k))
        0 (multiWithPolicy Nat Nat 0) 0 [1, 2, 1]).2.2 = 2 ∧
    (mPreheat (countingLoader (fun k : Nat => if k = 3 then .error "boom" else .ok k))
        0 (multiWithPolicy Nat Nat 0) 0 ([1, 2] ++ 3 :: [9])).1 = .error (3, "boom") ∧
    (mPreheat (countingLoader (fun k : Nat => if k = 3 then .error "boom" else .ok k))
        0 (multiWithPolicy Nat Nat 0) 0 ([1, 2] ++ 3 :: [9])).2.2 = 3 := by
  have h := preheat_order_shortcircuit_dedup
    (fun k : Nat => if k = 3 then .error "boom" else .ok k) 0 0
  have ha := h.1 [1, 2, 1] (by
    intro k hk
    fin_cases hk <;> exact ⟨_, rfl⟩)
  have hb := h.2 [1, 2] [9] 3 "boom" (by
    intro k hk
    fin_cases hk <;> exact ⟨_, rfl⟩) rfl
  exact ⟨ha.1, ha.2.trans (by decide), hb.1, hb.2.trans (by decide)⟩

/-- C6: MultiCache.Invalidate is a no-op on an absent key; on a present
key it removes the entry from the mapping (other keys and the policy
untouched) and runs the entry's `onInvalidate` exactly once when one is
installed; and every later Get for that key invokes the loader and
installs a brand-new entry whose TTL state comes from the policy in
force at recreation time, not from the removed entry. -/
theorem multicache_invalidate_removes_entry {K V : Type} [DecidableEq K]
    (m : MultiS K V) (key : K) :
    (m.values key = none → mInvalidate m key = (m, 0)) ∧
    (∀ c, m.values key = some c →
      (mInvalidate m key).1.values key = none ∧
      (∀ k, k ≠ key → (mInvalidate m key).1.values k = m.values k) ∧
      (mInvalidate m key).1.ttl = m.ttl ∧
      (mInvalidate m key).2 = (if c.hasOnInvalidate then 1 else 0)) ∧
    (∀ (f : K → Except Err V) (v : V) (now : Int) (n : Nat), f key = .ok v →
      (mGet (countingLoader f) now (mInvalidate m key).1 n key).2.2 = n + 1 ∧
      (mGet (countingLoader f) now (mInvalidate m key).1 n key).1 = .ok v ∧
      (mGet (countingLoader f) now (mInvalidate m key).1 n key).2.1.values key =
        some (loadedEntry v m.ttl now)) := by
  have hmiss : (mInvalidate m key).1.values key = none := by
    rcases hc : m.values key with _ | c
    · simp [mInvalidate, hc]
    · simp [mInvalidate, hc]
  have httl : (mInvalidate m key).1.ttl = m.ttl := by
    rcases hc : m.values key with _ | c
    · simp [mInvalidate, hc]
    · simp [mInvalidate, hc]
  refine ⟨?_, ?_, ?_⟩
  · intro h
    simp [mInvalidate, h]
  · intro c hc
    refine ⟨hmiss, ?_, httl, by simp [mInvalidate, hc, vInvalidate]⟩
    intro k hk
    simp [mInvalidate, hc, hk]
  · intro f v now n hf
    have hstep := mGet_miss_ok f now (mInvalidate m key).1 n key v hmiss hf
    rw [httl] at hstep
    refine ⟨by simp [hstep], by simp [hstep], ?_⟩
    simp [hstep]

/-- Witness for C6 at a concrete input: a cache holding key 1 (with a
callback installed) loses the entry on Invalidate, the callback fires
once, and the next Get reloads. -/
theorem multicache_invalidate_removes_entry_witness :
    (mInvalidate
        (mOnInvalidate
          (mGet (countingLoader (fun k : Nat => .ok (k + 10))) 0
              (multiWithPolicy Nat Nat 0) 0 1).2.1 1) 1).1.values 1 = none ∧
    (mInvalidate
        (mOnInvalidate
          (mGet (countingLoader (fun k : Nat => .ok (k + 10))) 0
              (multiWithPolicy Nat Nat 0) 0 1).2.1 1) 1).2 = 1 ∧
    (mGet (countingLoader (fun k : Nat => .ok (k + 10))) 0
        (mInvalidate
          (mOnInvalidate
            (mGet (countingLoader (fun k : Nat => .ok (k + 10))) 0
                (multiWithPolicy Nat Nat 0) 0 1).2.1 1) 1).1 5 1).2.2 = 6 := by
  have hload := mGet_miss_ok (fun k : Nat => .ok (k + 10)) 0
    (multiWithPolicy Nat Nat 0) 0 1 11 rfl rfl
  set m1 := (mGet (countingLoader (fun k : Nat => .ok (k + 10))) 0
      (multiWithPolicy Nat Nat 0) 0 1).2.1 with hm1
  have hentry : (mOnInvalidate m1 1).values 1 =
      some (vOnInvalidate (loadedEntry 11 0 0)) := by
    rw [hm1, hload]
    simp [mOnInvalidate, multiWithPolicy]
  have h := multicache_invalidate_removes_entry (mOnInvalidate m1 1) 1
  have h2 := h.2.1 (vOnInvalidate (loadedEntry 11 0 0)) hentry
  have h3 := h.2.2 (fun k : Nat => .ok (k + 10)) 11 0 5 rfl
  exact ⟨h2.1, by rw [h2.2.2.2]; simp [vOnInvalidate], h3.1⟩

/-- Helper: a Get against a loader that cannot fail never returns an
error, whatever the cache state. -/
theorem mGet_ok_of_loader_ok {K V S : Type} [DecidableEq K]
    (loader : MultiLoadFunc K V S) (now : Int) (m : MultiS K V) (s : S) (key : K)
    (hok : ∀ k t, ∃ v t', loader k t = (.ok v, t')) :
    ∃ v, (mGet loader now m s key).1 = .ok v := by
  have hentry : ∀ (m₁ : MultiS K V) (c : ValueS V),
      ∃ v, (mGetEntry loader now m₁ s key c).1 = .ok v := by
    intro m₁ c
    rcases hv : c.val with _ | w
    · obtain ⟨v, t', hl⟩ := hok key s
      exact ⟨v, by simp [mGetEntry, vGet, hv, vLoad, vLoadMiss, keyClosure, hl]⟩
    · by_cases hexp : cacheExpired c now
      · obtain ⟨v, t', hl⟩ := hok key s
        exact ⟨v, by simp [mGetEntry, vGet, hv, hexp, vLoad, vLoadMiss, keyClosure, hl]⟩
      · exact ⟨w, by simp [mGetEntry, vGet, hv, hexp]⟩
  rcases hm : m.values key with _ | c
  · obtain ⟨v, hv⟩ := hentry _ (newEntry m.ttl now)
    exact ⟨v, by rw [mGet, hm]; exact hv⟩
  · obtain ⟨v, hv⟩ := hentry m c
    exact ⟨v, by rw [mGet, hm]; exact hv⟩

/-- C9: a buffered MultiCache's Get never returns an error, whatever
the state: the write-buffer loader always succeeds with the zero value
and the read-cache loader only propagates errors from the write buffer;
hence MustGet never panics despite the error in Get's signature. -/
theorem buffered_get_never_errors {K V : Type} [DecidableEq K]
    (m : BufMultiS K V) (zero : V) (now : Int) (key : K) :
    (∃ v, (bufGet m zero now key).1 = .ok v) ∧
    bufMustGet m zero now key ≠ none := by
  have hread : ∀ (k : K) (wb : MultiS K V),
      ∃ v wb', readLoader zero now k wb = (.ok v, wb') := by
    intro k wb
    obtain ⟨v, hv⟩ := mGet_ok_of_loader_ok (atomLoader zero) now wb () k
      (fun k' t => ⟨zero, t, rfl⟩)
    rcases hg : mGet (atomLoader zero) now wb () k with ⟨r, wb', u⟩
    rw [hg] at hv
    simp at hv
    subst hv
    exact ⟨v, wb', by simp [readLoader, hg]⟩
  obtain ⟨v, hv⟩ := mGet_ok_of_loader_ok (readLoader zero now) now
    m.readCache m.writeBuffer key
    (fun k t => by
      obtain ⟨v, wb', h⟩ := hread k t
      exact ⟨v, wb', h⟩)
  have hbuf : (bufGet m zero now key).1 = .ok v := by
    rcases hg : mGet (readLoader zero now) now m.readCache m.writeBuffer key
      with ⟨r, rc', wb'⟩
    rw [hg] at hv
    simp at hv
    simp [bufGet, hg, hv]
  refine ⟨⟨v, hbuf⟩, ?_⟩
  rcases hg : bufGet m zero now key with ⟨r, m'⟩
  rw [hg] at hbuf
  simp at hbuf
  simp [bufMustGet, hg, hbuf]

/-- Helper: both branches of `MultiCache.Get` reduce to one `Value.Get`
against the present entry (or the freshly populated one), whose
resulting state overwrites the key's slot; other slots and the policy
are untouched. -/
theorem mGet_eq {K V S : Type} [DecidableEq K] (loader : MultiLoadFunc K V S)
    (now : Int) (m : MultiS K V) (s : S) (key : K) :
    (mGet loader now m s key).1 =
      (vGet ((m.values key).getD (newEntry m.ttl now)) now (keyClosure loader key) s).res ∧
    (∀ k, (mGet loader now m s key).2.1.values k =
      if k = key then
        some (vGet ((m.values key).getD (newEntry m.ttl now)) now
            (keyClosure loader key) s).val
      else m.values k) ∧
    (mGet loader now m s key).2.1.ttl = m.ttl ∧
    (mGet loader now m s key).2.2 =
      (vGet ((m.values key).getD (newEntry m.ttl now)) now (keyClosure loader key) s).ext := by
  rcases hm : m.values key with _ | c
  · refine ⟨by simp [mGet, hm, mGetEntry], ?_, by simp [mGet, hm, mGetEntry],
      by simp [mGet, hm, mGetEntry]⟩
    intro k
    by_cases hk : k = key <;> simp [mGet, hm, mGetEntry, hk]
  · refine ⟨by simp [mGet, hm, mGetEntry], ?_, by simp [mGet, hm, mGetEntry],
      by simp [mGet, hm, mGetEntry]⟩
    intro k
    by_cases hk : k = key <;> simp [mGet, hm, mGetEntry, hk]

/-- Helper: a Value.Get through the keyed-loader closure never changes
the entry's `ttl` (the closure does not touch the Value; the load path
only sets `val` and `expiration`). -/
theorem vGet_keyClosure_ttl {K V S : Type} (loader : MultiLoadFunc K V S)
    (key : K) (c : ValueS V) (now : Int) (s : S) :
    (vGet c now (keyClosure loader key) s).val.ttl = c.ttl := by
  have hmiss : (vLoadMiss c now (keyClosure loader key) s).val.ttl = c.ttl := by
    rcases hl : loader key s with ⟨r, s'⟩
    cases r <;> simp [vLoadMiss, keyClosure, hl]
  rcases hv : c.val with _ | w
  · simp [vGet, hv, vLoad, hmiss]
  · by_cases hexp : cacheExpired c now
    · simp [vGet, hv, hexp, vLoad, hmiss]
    · by_cases href : c.getRefreshes <;> by_cases httl : c.ttl ≤ 0 <;>
        simp [vGet, hv, hexp, href, refreshTimer, httl]

/-- Helper: the external state after a Value.Get through the keyed
closure is either the incoming one (cache hit) or the one produced by
one loader invocation. -/
theorem vGet_keyClosure_ext {K V S : Type} (loader : MultiLoadFunc K V S)
    (key : K) (c : ValueS V) (now : Int) (s : S) :
    (vGet c now (keyClosure loader key) s).ext = s ∨
    (vGet c now (keyClosure loader key) s).ext = (loader key s).2 := by
  have hmiss : (vLoadMiss c now (keyClosure loader key) s).ext = (loader key s).2 := by
    rcases hl : loader key s with ⟨r, s'⟩
    cases r <;> simp [vLoadMiss, keyClosure, hl]
  rcases hv : c.val with _ | w
  · exact Or.inr (by simp [vGet, hv, vLoad, hmiss])
  · by_cases hexp : cacheExpired c now
    · exact Or.inr (by simp [vGet, hv, hexp, vLoad, hmiss])
    · exact Or.inl (by simp [vGet, hv, hexp])

/-- Helper: any MultiCache Get preserves `entriesTTL0`. -/
theorem mGet_preserves_entriesTTL0 {K V S : Type} [DecidableEq K]
    (loader : MultiLoadFunc K V S) (now : Int) (m : MultiS K V) (s : S) (key : K)
    (h : entriesTTL0 m) : entriesTTL0 (mGet loader now m s key).2.1 := by
  obtain ⟨-, hvals, httl, -⟩ := mGet_eq loader now m s key
  refine ⟨by rw [httl]; exact h.1, ?_⟩
  intro k c hk
  rw [hvals k] at hk
  by_cases hkk : k = key
  · rw [if_pos hkk] at hk
    injection hk with hk
    rw [← hk, vGet_keyClosure_ttl]
    rcases hm : m.values key with _ | c₀
    · simp only [hm, Option.getD_none, newEntry]
      by_cases hp : m.ttl > 0
      · rw [if_pos hp, show (setTTLcore (freshValue (T := V)) m.ttl now).ttl = m.ttl
          from rfl]
        exact h.1
      · rw [if_neg hp]
        exact le_refl 0
    · simp only [hm, Option.getD_some]
      exact h.2 key c₀ hm
  · rw [if_neg hkk] at hk
    exact h.2 k c hk

/-- Helper: a MultiCache Invalidate always leaves the invalidated
key's slot empty, keeps every other slot, and keeps the policy. -/
theorem mInvalidate_eq {K V : Type} [DecidableEq K] (m : MultiS K V) (key : K) :
    (mInvalidate m key).1.values key = none ∧
    (∀ k, k ≠ key → (mInvalidate m key).1.values k = m.values k) ∧
    (mInvalidate m key).1.ttl = m.ttl := by
  rcases hm : m.values key with _ | c
  · exact ⟨by simp [mInvalidate, hm], fun k _ => by simp [mInvalidate, hm],
      by simp [mInvalidate, hm]⟩
  · exact ⟨by simp [mInvalidate, hm], fun k hk => by simp [mInvalidate, hm, hk],
      by simp [mInvalidate, hm]⟩

/-- Helper: a MultiCache Get leaves every other key's entry and the TTL
policy unchanged. -/
theorem mGet_frame {K V S : Type} [DecidableEq K] (loader : MultiLoadFunc K V S)
    (now : Int) (m : MultiS K V) (s : S) (key k : K) (hk : k ≠ key) :
    (mGet loader now m s key).2.1.values k = m.values k ∧
    (mGet loader now m s key).2.1.ttl = m.ttl := by
  obtain ⟨-, hvals, httl, -⟩ := mGet_eq loader now m s key
  exact ⟨by rw [hvals k, if_neg hk], httl⟩

/-- Helper: whichever branch Invalidate takes, other keys' entries and
the policy are unchanged. -/
theorem mInvalidate_frame' {K V : Type} [DecidableEq K] (m : MultiS K V)
    (key k : K) (hk : k ≠ key) :
    (mInvalidate m key).1.values k = m.values k ∧
    (mInvalidate m key).1.ttl = m.ttl := by
  exact ⟨(mInvalidate_eq m key).2.1 k hk, (mInvalidate_eq m key).2.2⟩

/-- Helper: the second component of the read-through loader's result is
the write buffer left by the inner Get. -/
theorem readLoader_snd {K V : Type} [DecidableEq K] (zero : V) (now : Int)
    (k : K) (wb : MultiS K V) :
    (readLoader zero now k wb).2 = (mGet (atomLoader zero) now wb () k).2.1 := by
  rcases hg : mGet (atomLoader zero) now wb () k with ⟨r, wb', u⟩
  cases r <;> simp [readLoader, hg]

/-- Helper: a Value.Get against the atom-creating closure on a cell
that never expires and holds `v` (or is unloaded with `v` the zero
value) returns `v` and leaves the cell holding `v` with its TTL. -/
theorem vGet_atom {K V : Type} [DecidableEq K] (zero v : V) (now : Int) (key : K)
    (c : ValueS V)
    (hc : c.val = some v ∨ (c.val = none ∧ v = zero)) (httl : c.ttl ≤ 0) :
    (vGet c now (keyClosure (atomLoader (K := K) zero) key) ()).res = .ok v ∧
    (vGet c now (keyClosure (atomLoader (K := K) zero) key) ()).val.val = some v ∧
    (vGet c now (keyClosure (atomLoader (K := K) zero) key) ()).val.ttl = c.ttl := by
  have hexp : cacheExpired c now = false := by
    simp [cacheExpired, httl]
  rcases hc with hv | ⟨hv, rfl⟩
  · have hval : (if c.getRefreshes then refreshTimer c now else c) = c := by
      by_cases href : c.getRefreshes <;> simp [href, refreshTimer, httl]
    simp [vGet, hv, hexp, hval]
  · simp [vGet, hv, vLoad, vLoadMiss, keyClosure, atomLoader]

/-- Helper: a write-buffer Get on a buffer whose cell for `key` (if
present) is unexpiring and holds `v` — absent meaning `v` is the zero
value — returns `v` and leaves the cell for `key` holding `v`; other
cells and the policy are untouched. -/
theorem wbGet_spec {K V : Type} [DecidableEq K] (zero v : V) (now : Int)
    (wb : MultiS K V) (key : K)
    (httl : wb.ttl ≤ 0)
    (hcell : match wb.values key with
      | none => v = zero
      | some c => (c.val = some v ∨ (c.val = none ∧ v = zero)) ∧ c.ttl ≤ 0) :
    (mGet (atomLoader zero) now wb () key).1 = .ok v ∧
    (∀ k, k ≠ key → (mGet (atomLoader zero) now wb () key).2.1.values k = wb.values k) ∧
    (mGet (atomLoader zero) now wb () key).2.1.ttl = wb.ttl ∧
    (∃ c', (mGet (atomLoader zero) now wb () key).2.1.values key = some c' ∧
      c'.val = some v ∧ c'.ttl ≤ 0) := by
  obtain ⟨hres, hvals, httl', hext⟩ := mGet_eq (atomLoader zero) now wb () key
  have hc₀ : ((wb.values key).getD (newEntry wb.ttl now)).val = some v ∨
      (((wb.values key).getD (newEntry wb.ttl now)).val = none ∧ v = zero) := by
    rcases hm : wb.values key with _ | c
    · rw [hm] at hcell
      refine Or.inr ⟨?_, hcell⟩
      simp [newEntry, show ¬ wb.ttl > 0 by omega, freshValue]
    · rw [hm] at hcell
      simpa using hcell.1
  have hc₀ttl : ((wb.values key).getD (newEntry wb.ttl now)).ttl ≤ 0 := by
    rcases hm : wb.values key with _ | c
    · simp [newEntry, show ¬ wb.ttl > 0 by omega, freshValue]
    · rw [hm] at hcell
      simpa using hcell.2
  obtain ⟨h1, h2, h3⟩ := vGet_atom zero v now key _ hc₀ hc₀ttl
  refine ⟨by rw [hres, h1], ?_, httl', ?_⟩
  · intro k hk
    rw [hvals k, if_neg hk]
  · exact ⟨_, by rw [hvals key, if_pos rfl], h2, by rw [h3]; exact hc₀ttl⟩

/-- Helper: a populated entry starts with no held value. -/
theorem newEntry_val_none {V : Type} (p now : Int) :
    (newEntry (V := V) p now).val = none := by
  by_cases hp : p > 0 <;> simp [newEntry, hp, setTTLcore, freshValue]

/-- Helper: under the invariant, a buffered Get for the key returns `v`
and preserves the invariant. -/
theorem bufGet_cellHolds {K V : Type} [DecidableEq K] (zero v : V) (now : Int)
    (m : BufMultiS K V) (key : K) (h : cellHolds m zero v key) :
    (bufGet m zero now key).1 = .ok v ∧
    cellHolds (bufGet m zero now key).2 zero v key := by
  obtain ⟨hwb, hwttl, hrc⟩ := h
  obtain ⟨hres, hvals, httl', hext⟩ :=
    mGet_eq (readLoader zero now) now m.readCache m.writeBuffer key
  set c₀ := (m.readCache.values key).getD (newEntry m.readCache.ttl now) with hc₀
  set step := vGet c₀ now (keyClosure (readLoader zero now) key) m.writeBuffer
    with hstep
  rcases hg : mGet (readLoader zero now) now m.readCache m.writeBuffer key
    with ⟨r, rc', wb'⟩
  have hb : bufGet m zero now key = (r, ⟨rc', wb'⟩) := by simp [bufGet, hg]
  rw [hg] at hres hvals httl' hext
  simp only at hres hvals httl' hext
  have hhit : ∀ w, c₀.val = some w → cacheExpired c₀ now = false →
      step.res = .ok v ∧ step.val.val = some v ∧ step.ext = m.writeBuffer := by
    intro w hcv hexp
    have hrck : m.readCache.values key = some c₀ := by
      rcases hm : m.readCache.values key with _ | c
      · rw [hc₀, hm, Option.getD_none] at hcv
        rw [newEntry_val_none] at hcv
        cases hcv
      · rw [hc₀, hm, Option.getD_some]
    have hwv : w = v := by
      rcases hrc c₀ hrck with hnone | hsome
      · rw [hcv] at hnone
        cases hnone
      · rw [hcv] at hsome
        injection hsome
    have hval : (if c₀.getRefreshes then refreshTimer c₀ now else c₀).val = some v := by
      by_cases href : c₀.getRefreshes <;> by_cases ht : c₀.ttl ≤ 0 <;>
        simp [href, refreshTimer, ht, hcv, hwv]
    rw [hstep]
    refine ⟨?_, ?_, ?_⟩ <;> simp [vGet, hcv, hexp, hval, hwv]
  obtain ⟨hok, hframe, httlwb, c', hc', hcval', hcttl'⟩ :=
    wbGet_spec zero v now m.writeBuffer key hwttl hwb
  have hrl : readLoader zero now key m.writeBuffer =
      (.ok v, (mGet (atomLoader zero) now m.writeBuffer () key).2.1) := by
    rcases hg₂ : mGet (atomLoader zero) now m.writeBuffer () key with ⟨r₂, wb₂, u⟩
    rw [hg₂] at hok
    simp only at hok
    simp [readLoader, hg₂, hok]
  have hload : (c₀.val = none ∨ cacheExpired c₀ now = true) →
      step.res = .ok v ∧ step.val.val = some v ∧
        step.ext = (mGet (atomLoader zero) now m.writeBuffer () key).2.1 := by
    intro hl
    rw [hstep]
    rcases hl with hcv | hexp
    · refine ⟨?_, ?_, ?_⟩ <;> simp [vGet, hcv, vLoad, vLoadMiss, keyClosure, hrl]
    · rcases hcv : c₀.val with _ | w
      · refine ⟨?_, ?_, ?_⟩ <;> simp [vGet, hcv, vLoad, vLoadMiss, keyClosure, hrl]
      · refine ⟨?_, ?_, ?_⟩ <;>
          simp [vGet, hcv, hexp, vLoad, vLoadMiss, keyClosure, hrl]
  have hmain : step.res = .ok v ∧ step.val.val = some v ∧
      (step.ext = m.writeBuffer ∨
       step.ext = (mGet (atomLoader zero) now m.writeBuffer () key).2.1) := by
    rcases hcv : c₀.val with _ | w
    · obtain ⟨h1, h2, h3⟩ := hload (Or.inl hcv)
      exact ⟨h1, h2, Or.inr h3⟩
    · by_cases hexp : cacheExpired c₀ now
      · obtain ⟨h1, h2, h3⟩ := hload (Or.inr hexp)
        exact ⟨h1, h2, Or.inr h3⟩
      · obtain ⟨h1, h2, h3⟩ := hhit w hcv (by simpa using hexp)
        exact ⟨h1, h2, Or.inl h3⟩
  obtain ⟨hstepres, hstepval, hstepext⟩ := hmain
  rw [hb]
  refine ⟨by rw [hres, hstepres], ?_, ?_, ?_⟩
  · show (match wb'.values key with
      | none => v = zero
      | some c => (c.val = some v ∨ (c.val = none ∧ v = zero)) ∧ c.ttl ≤ 0)
    rw [hext]
    rcases hstepext with he | he
    · rw [he]
      exact hwb
    · rw [he, hc']
      exact ⟨Or.inl hcval', hcttl'⟩
  · show wb'.ttl ≤ 0
    rw [hext]
    rcases hstepext with he | he
    · rw [he]
      exact hwttl
    · rw [he, httlwb]
      exact hwttl
  · intro c hc
    show c.val = none ∨ c.val = some v
    rw [show rc'.values = (rc', wb').1.values from rfl] at hc
    rw [hvals key, if_pos rfl] at hc
    injection hc with hc
    rw [← hc, hstepval]
    exact Or.inr rfl

/-- Helper: a buffered Get for a different key leaves the given key's
read entry, write cell, and the write buffer's policy unchanged. -/
theorem bufGet_frame {K V : Type} [DecidableEq K] (zero : V) (now : Int)
    (m : BufMultiS K V) (k key : K) (hk : k ≠ key) :
    (bufGet m zero now k).2.readCache.values key = m.readCache.values key ∧
    (bufGet m zero now k).2.writeBuffer.values key = m.writeBuffer.values key ∧
    (bufGet m zero now k).2.writeBuffer.ttl = m.writeBuffer.ttl := by
  obtain ⟨hres, hvals, httl', hext⟩ :=
    mGet_eq (readLoader zero now) now m.readCache m.writeBuffer k
  rcases hg : mGet (readLoader zero now) now m.readCache m.writeBuffer k
    with ⟨r, rc', wb'⟩
  have hb : bufGet m zero now k = (r, ⟨rc', wb'⟩) := by simp [bufGet, hg]
  rw [hg] at hvals hext
  simp only at hvals hext
  rw [hb]
  have hwb : wb'.values key = m.writeBuffer.values key ∧
      wb'.ttl = m.writeBuffer.ttl := by
    rw [hext]
    rcases vGet_keyClosure_ext (readLoader zero now) k
        ((m.readCache.values k).getD (newEntry m.readCache.ttl now)) now
        m.writeBuffer with he | he
    · rw [he]
      exact ⟨rfl, rfl⟩
    · rw [he, readLoader_snd]
      obtain ⟨hfr, httl⟩ := mGet_frame (atomLoader zero) now m.writeBuffer () k key
        (Ne.symm hk)
      exact ⟨hfr, httl⟩
  exact ⟨by rw [hvals key, if_neg (Ne.symm hk)], hwb.1, hwb.2⟩

/-- Helper: a buffered Set for a different key leaves the given key's
read entry, write cell, and the write buffer's policy unchanged. -/
theorem bufSet_frame {K V : Type} [DecidableEq K] (zero w : V) (now : Int)
    (m : BufMultiS K V) (k key : K) (hk : k ≠ key) :
    (bufSet m zero now k w).readCache.values key = m.readCache.values key ∧
    (bufSet m zero now k w).writeBuffer.values key = m.writeBuffer.values key ∧
    (bufSet m zero now k w).writeBuffer.ttl = m.writeBuffer.ttl := by
  rcases hg : mGet (atomLoader zero) now m.writeBuffer () k with ⟨r, wb', u⟩
  have hb : bufSet m zero now k w =
      ⟨(mInvalidate m.readCache k).1,
       { wb' with values := fun x =>
           if x = k then (wb'.values k).map (fun c => { c with val := some w })
           else wb'.values x }⟩ := by
    simp [bufSet, hg]
  obtain ⟨hfr, httl⟩ := mGet_frame (atomLoader zero) now m.writeBuffer () k key
    (Ne.symm hk)
  rw [hg] at hfr httl
  simp only at hfr httl
  rw [hb]
  refine ⟨(mInvalidate_frame' m.readCache k key (Ne.symm hk)).1, ?_, httl⟩
  show (if key = k then _ else wb'.values key) = m.writeBuffer.values key
  rw [if_neg (Ne.symm hk), hfr]

/-- Helper: a buffered Unset for a different key leaves the given key's
read entry, write cell, and the write buffer's policy unchanged. -/
theorem bufUnset_frame {K V : Type} [DecidableEq K] (m : BufMultiS K V)
    (k key : K) (hk : k ≠ key) :
    (bufUnset m k).readCache.values key = m.readCache.values key ∧
    (bufUnset m k).writeBuffer.values key = m.writeBuffer.values key ∧
    (bufUnset m k).writeBuffer.ttl = m.writeBuffer.ttl := by
  exact ⟨(mInvalidate_frame' m.readCache k key (Ne.symm hk)).1,
    (mInvalidate_frame' m.writeBuffer k key (Ne.symm hk)).1,
    (mInvalidate_frame' m.writeBuffer k key (Ne.symm hk)).2⟩

/-- Helper: the invariant only depends on the key's read entry, the
key's write cell, and the write buffer's policy. -/
theorem cellHolds_of_frame {K V : Type} [DecidableEq K] (zero v : V)
    (m m' : BufMultiS K V) (key : K) (h : cellHolds m zero v key)
    (hrc : m'.readCache.values key = m.readCache.values key)
    (hwb : m'.writeBuffer.values key = m.writeBuffer.values key)
    (httl : m'.writeBuffer.ttl = m.writeBuffer.ttl) :
    cellHolds m' zero v key := by
  obtain ⟨h1, h2, h3⟩ := h
  refine ⟨?_, by rw [httl]; exact h2, ?_⟩
  · show (match m'.writeBuffer.values key with
      | none => v = zero
      | some c => (c.val = some v ∨ (c.val = none ∧ v = zero)) ∧ c.ttl ≤ 0)
    rw [hwb]
    exact h1
  · intro c hc
    rw [hrc] at hc
    exact h3 c hc

/-- Helper: invalidating any key through the buffered cache preserves
the invariant (the write buffer is untouched; a removed read entry is
vacuously coherent). -/
theorem bufInvalidate_cellHolds {K V : Type} [DecidableEq K] (zero v : V)
    (m : BufMultiS K V) (key k : K) (h : cellHolds m zero v key) :
    cellHolds (bufInvalidate m k) zero v key := by
  obtain ⟨h1, h2, h3⟩ := h
  refine ⟨h1, h2, ?_⟩
  intro c hc
  by_cases hkk : k = key
  · subst hkk
    rw [show (bufInvalidate m k).readCache = (mInvalidate m.readCache k).1 from rfl,
      (mInvalidate_eq m.readCache k).1] at hc
    cases hc
  · rw [show (bufInvalidate m k).readCache = (mInvalidate m.readCache k).1 from rfl,
      (mInvalidate_frame' m.readCache k key fun he => hkk he.symm).1] at hc
    exact h3 c hc

/-- Helper: a write-buffer Get leaves some never-expiring cell at the
key when the buffer is well-formed. -/
theorem mGet_atom_entry {K V : Type} [DecidableEq K] (zero : V) (now : Int)
    (wb : MultiS K V) (key : K) (h : entriesTTL0 wb) :
    ∃ c', (mGet (atomLoader zero) now wb () key).2.1.values key = some c' ∧
      c'.ttl ≤ 0 := by
  obtain ⟨-, hvals, -, -⟩ := mGet_eq (atomLoader zero) now wb () key
  refine ⟨_, by rw [hvals key, if_pos rfl], ?_⟩
  rw [vGet_keyClosure_ttl]
  rcases hm : wb.values key with _ | c₀
  · rw [Option.getD_none, newEntry, if_neg (by have := h.1; omega : ¬ wb.ttl > 0)]
    exact le_refl 0
  · rw [Option.getD_some]
    exact h.2 key c₀ hm

/-- Helper: Set establishes the invariant for its key and value: the
cell holds the new value, and the read entry is gone. -/
theorem bufSet_establishes {K V : Type} [DecidableEq K] (zero v : V) (now : Int)
    (m : BufMultiS K V) (key : K) (h : entriesTTL0 m.writeBuffer) :
    cellHolds (bufSet m zero now key v) zero v key := by
  obtain ⟨c', hc', httlc⟩ := mGet_atom_entry zero now m.writeBuffer key h
  have httl : (mGet (atomLoader zero) now m.writeBuffer () key).2.1.ttl =
      m.writeBuffer.ttl := (mGet_eq (atomLoader zero) now m.writeBuffer () key).2.2.1
  rcases hg : mGet (atomLoader zero) now m.writeBuffer () key with ⟨r, wb', u⟩
  rw [hg] at hc' httl
  simp only at hc' httl
  have hb : bufSet m zero now key v =
      ⟨(mInvalidate m.readCache key).1,
       { wb' with values := fun x =>
           if x = key then (wb'.values key).map (fun c => { c with val := some v })
           else wb'.values x }⟩ := by
    simp [bufSet, hg]
  rw [hb]
  refine ⟨?_, ?_, ?_⟩
  case refine_2 =>
    show wb'.ttl ≤ 0
    rw [httl]
    exact h.1
  · show (match (if key = key then (wb'.values key).map
        (fun c => { c with val := some v }) else wb'.values key) with
      | none => v = zero
      | some c => (c.val = some v ∨ (c.val = none ∧ v = zero)) ∧ c.ttl ≤ 0)
    rw [if_pos rfl, hc']
    exact ⟨Or.inl rfl, httlc⟩
  · intro c hc
    rw [show (⟨(mInvalidate m.readCache key).1, _⟩ : BufMultiS K V).readCache =
        (mInvalidate m.readCache key).1 from rfl,
      (mInvalidate_eq m.readCache key).1] at hc
    cases hc

/-- Helper: Unset establishes the invariant for its key and the zero
value: both entries are gone. -/
theorem bufUnset_establishes {K V : Type} [DecidableEq K] (zero : V)
    (m : BufMultiS K V) (key : K) (h : m.writeBuffer.ttl ≤ 0) :
    cellHolds (bufUnset m key) zero zero key := by
  refine ⟨?_, ?_, ?_⟩
  · show (match (bufUnset m key).writeBuffer.values key with
      | none => zero = zero
      | some c => (c.val = some zero ∨ (c.val = none ∧ zero = zero)) ∧ c.ttl ≤ 0)
    rw [show (bufUnset m key).writeBuffer = (mInvalidate m.writeBuffer key).1 from rfl,
      (mInvalidate_eq m.writeBuffer key).1]
  · rw [show (bufUnset m key).writeBuffer = (mInvalidate m.writeBuffer key).1 from rfl,
      (mInvalidate_eq m.writeBuffer key).2.2]
    exact h
  · intro c hc
    rw [show (bufUnset m key).readCache = (mInvalidate m.readCache key).1 from rfl,
      (mInvalidate_eq m.readCache key).1] at hc
    cases hc

/-- Helper: a buffered Get keeps the write buffer well-formed. -/
theorem bufGet_entriesTTL0 {K V : Type} [DecidableEq K] (zero : V) (now : Int)
    (m : BufMultiS K V) (k : K) (h : entriesTTL0 m.writeBuffer) :
    entriesTTL0 (bufGet m zero now k).2.writeBuffer := by
  rcases hg : mGet (readLoader zero now) now m.readCache m.writeBuffer k
    with ⟨r, rc', wb'⟩
  have hb : (bufGet m zero now k).2.writeBuffer = wb' := by simp [bufGet, hg]
  have hext := (mGet_eq (readLoader zero now) now m.readCache m.writeBuffer k).2.2.2
  rw [hg] at hext
  simp only at hext
  rw [hb, hext]
  rcases vGet_keyClosure_ext (readLoader zero now) k
      ((m.readCache.values k).getD (newEntry m.readCache.ttl now)) now
      m.writeBuffer with he | he
  · rw [he]
    exact h
  · rw [he, readLoader_snd]
    exact mGet_preserves_entriesTTL0 (atomLoader zero) now m.writeBuffer () k h

/-- Helper: a buffered Set keeps the write buffer well-formed. -/
theorem bufSet_entriesTTL0 {K V : Type} [DecidableEq K] (zero w : V) (now : Int)
    (m : BufMultiS K V) (k : K) (h : entriesTTL0 m.writeBuffer) :
    entriesTTL0 (bufSet m zero now k w).writeBuffer := by
  rcases hg : mGet (atomLoader zero) now m.writeBuffer () k with ⟨r, wb', u⟩
  have h' : entriesTTL0 wb' := by
    have hp := mGet_preserves_entriesTTL0 (atomLoader zero) now m.writeBuffer () k h
    rw [hg] at hp
    exact hp
  have hbv : ∀ x, (bufSet m zero now k w).writeBuffer.values x =
      if x = k then (wb'.values k).map (fun c => { c with val := some w })
      else wb'.values x := by
    intro x
    simp [bufSet, hg]
  have hbt : (bufSet m zero now k w).writeBuffer.ttl = wb'.ttl := by
    simp [bufSet, hg]
  refine ⟨by rw [hbt]; exact h'.1, ?_⟩
  intro x c hx
  rw [hbv x] at hx
  by_cases hxk : x = k
  · rw [if_pos hxk] at hx
    rcases hw : wb'.values k with _ | cw
    · rw [hw] at hx
      cases hx
    · rw [hw] at hx
      simp only [Option.map_some', Option.some.injEq] at hx
      rw [← hx]
      exact h'.2 k cw hw
  · rw [if_neg hxk] at hx
    exact h'.2 x c hx

/-- Helper: a buffered Unset keeps the write buffer well-formed. -/
theorem bufUnset_entriesTTL0 {K V : Type} [DecidableEq K]
    (m : BufMultiS K V) (k : K) (h : entriesTTL0 m.writeBuffer) :
    entriesTTL0 (bufUnset m k).writeBuffer := by
  refine ⟨?_, ?_⟩
  · rw [show (bufUnset m k).writeBuffer = (mInvalidate m.writeBuffer k).1 from rfl,
      (mInvalidate_eq m.writeBuffer k).2.2]
    exact h.1
  · intro x c hx
    rw [show (bufUnset m k).writeBuffer = (mInvalidate m.writeBuffer k).1 from rfl] at hx
    by_cases hxk : x = k
    · subst hxk
      rw [(mInvalidate_eq m.writeBuffer x).1] at hx
      cases hx
    · rw [(mInvalidate_eq m.writeBuffer k).2.1 x hxk] at hx
      exact h.2 x c hx

/-- Helper: a run preserves write-buffer well-formedness. -/
theorem bufRun_entriesTTL0 {K V : Type} [DecidableEq K] (zero : V) :
    ∀ (ops : List (BufOp K V)) (m : BufMultiS K V), entriesTTL0 m.writeBuffer →
      entriesTTL0 (bufRun zero m ops).1.writeBuffer := by
  intro ops
  induction ops with
  | nil => exact fun m h => h
  | cons op rest ih =>
    intro m h
    cases op with
    | get key now => exact ih _ (bufGet_entriesTTL0 zero now m key h)
    | set key v now => exact ih _ (bufSet_entriesTTL0 zero v now m key h)
    | unset key => exact ih _ (bufUnset_entriesTTL0 m key h)
    | inval key => exact ih _ h

/-- Helper: a fresh buffered MultiCache has a well-formed write
buffer. -/
theorem bufNew_entriesTTL0 {K V : Type} :
    entriesTTL0 (bufNew K V).writeBuffer := by
  refine ⟨le_refl 0, ?_⟩
  intro k c h
  simp [bufNew, multiWithPolicy] at h

/-- Helper: a run containing no Set/Unset of the key preserves the
invariant, and every Get of the key in it returns `v`. -/
theorem bufRun_cellHolds {K V : Type} [DecidableEq K] (zero v : V) (key : K) :
    ∀ (ops : List (BufOp K V)) (m : BufMultiS K V),
      cellHolds m zero v key → (∀ op ∈ ops, writesKey op key = false) →
      (∀ out ∈ (bufRun zero m ops).2, out.1 = key → out.2 = .ok v) ∧
      cellHolds (bufRun zero m ops).1 zero v key := by
  intro ops
  induction ops with
  | nil =>
    intro m h _
    refine ⟨?_, h⟩
    intro out hout
    cases hout
  | cons op rest ih =>
    intro m h hw
    have hwrest : ∀ op ∈ rest, writesKey op key = false :=
      fun op hop => hw op (List.mem_cons_of_mem _ hop)
    cases op with
    | get k now =>
      by_cases hk : k = key
      · subst hk
        obtain ⟨hres, hpres⟩ := bufGet_cellHolds zero v now m k h
        obtain ⟨ihout, ihheld⟩ := ih (bufGet m zero now k).2 hpres hwrest
        refine ⟨?_, ihheld⟩
        intro out hout hkey
        rcases List.mem_cons.mp hout with rfl | hout
        · exact hres
        · exact ihout out hout hkey
      · have hf := bufGet_frame zero now m k key hk
        obtain ⟨ihout, ihheld⟩ := ih (bufGet m zero now k).2
          (cellHolds_of_frame zero v m _ key h hf.1 hf.2.1 hf.2.2) hwrest
        refine ⟨?_, ihheld⟩
        intro out hout hkey
        rcases List.mem_cons.mp hout with rfl | hout
        · exact absurd hkey hk
        · exact ihout out hout hkey
    | set k w now =>
      have hk : k ≠ key := by
        have h0 := hw _ (List.mem_cons_self _ _)
        simpa [writesKey] using h0
      have hf := bufSet_frame zero w now m k key hk
      exact ih _ (cellHolds_of_frame zero v m _ key h hf.1 hf.2.1 hf.2.2) hwrest
    | unset k =>
      have hk : k ≠ key := by
        have h0 := hw _ (List.mem_cons_self _ _)
        simpa [writesKey] using h0
      have hf := bufUnset_frame m k key hk
      exact ih _ (cellHolds_of_frame zero v m _ key h hf.1 hf.2.1 hf.2.2) hwrest
    | inval k =>
      exact ih _ (bufInvalidate_cellHolds zero v m key k h) hwrest

/-- C7: starting from a fresh buffered MultiCache and any prefix of
operations, once `Set(k, v)` returns, every Get of `k` in any later run
containing no Set/Unset of `k` returns `v`; and once `Unset(k)`
returns, every such Get returns the zero value of the value type. -/
theorem buffered_set_then_get_reads_write {K V : Type} [DecidableEq K]
    (zero v : V) (key : K) (pre post : List (BufOp K V)) (now : Int)
    (hpost : ∀ op ∈ post, writesKey op key = false) :
    (∀ out ∈ (bufRun zero (bufSet (bufRun zero (bufNew K V) pre).1 zero now key v)
        post).2, out.1 = key → out.2 = .ok v) ∧
    (∀ out ∈ (bufRun zero (bufUnset (bufRun zero (bufNew K V) pre).1 key) post).2,
      out.1 = key → out.2 = .ok zero) := by
  have hwb : entriesTTL0 (bufRun zero (bufNew K V) pre).1.writeBuffer :=
    bufRun_entriesTTL0 zero pre (bufNew K V) bufNew_entriesTTL0
  exact ⟨(bufRun_cellHolds zero v key post _
      (bufSet_establishes zero v now _ key hwb) hpost).1,
    (bufRun_cellHolds zero zero key post _
      (bufUnset_establishes zero _ key hwb.1) hpost).1⟩

/-- Witness for C7 at a concrete input: Set key 1 to 42, then a Get of
key 1 (after an unrelated Get of key 2) returns 42; after Unset of key
1, a Get returns 0. -/
theorem buffered_set_then_get_reads_write_witness :
    (bufGet (bufGet (bufSet (bufNew Nat Nat) 0 0 1 42) 0 3 2).2 0 5 1).1 =
      .ok 42 ∧
    (bufGet (bufUnset (bufNew Nat Nat) 1) 0 5 1).1 = .ok 0 := by
  have h := buffered_set_then_get_reads_write (K := Nat) (V := Nat) 0 42 1 []
    [.get 2 3, .get 1 5] 0
    (by intro op hop; fin_cases hop <;> rfl)
  have h' := buffered_set_then_get_reads_write (K := Nat) (V := Nat) 0 42 1 []
    [.get 1 5] 0
    (by intro op hop; fin_cases hop; rfl)
  constructor
  · exact h.1 (1, (bufGet (bufGet (bufSet (bufNew Nat Nat) 0 0 1 42) 0 3 2).2
      0 5 1).1) (by simp [bufRun]) rfl
  · exact h'.2 (1, (bufGet (bufUnset (bufNew Nat Nat) 1) 0 5 1).1)
      (by simp [bufRun]) rfl

/-- C8 counterexample, at a concrete input: after a Get whose file read
fails, the watcher's context is already cancelled even though its owner
never cancelled it, and a subsequent matching file event does not
invalidate the Value — the cached value 1 survives an event that the
claim says would invalidate it.  The claim that the listener keeps
processing events and invalidating until the owner cancels is false on
the code: the loader itself cancels the context on a load failure. -/
theorem reader_load_failure_stops_watcher_cex :
    (readerGet (readerCacheNew (T := Int)) 0 (.error "read failed")).2.cancelled
      = true ∧
    (watcherEvent
        (readerGet (readerGet (readerCacheNew (T := Int)) 0
            (.error "read failed")).2 1 (.ok 1)).2
        "f" "f").cacheVal.val = some 1 := by
  decide

/-- C8 as amended: a load failure in the reader cache's loader is
returned to the caller of Get like any loader error and leaves the
Value unchanged, but it also cancels the watcher's own context; from
then on the background listener is stopped, so no later file event —
matching or not — invalidates the Value. -/
theorem reader_load_failure_cancels_watcher {T : Type}
    (st : ReaderCacheS T) (now : Int) (e : Err)
    (hload : st.cacheVal.val = none ∨ cacheExpired st.cacheVal now = true) :
    (readerGet st now (.error e)).1 = .error e ∧
    (readerGet st now (.error e)).2.cacheVal = st.cacheVal ∧
    (readerGet st now (.error e)).2.cancelled = true ∧
    ∀ p f, watcherEvent (readerGet st now (.error e)).2 p f =
      (readerGet st now (.error e)).2 := by
  have hstep : vGet st.cacheVal now (readerLoadFunc (.error e)) st.cancelled =
      ⟨.error e, st.cacheVal, true, 0⟩ := by
    rcases hmiss : st.cacheVal.val with _ | w
    · simp [vGet, hmiss, vLoad, vLoadMiss, readerLoadFunc]
    · rcases hload with h | h
      · rw [hmiss] at h
        cases h
      · simp [vGet, hmiss, h, vLoad, vLoadMiss, readerLoadFunc]
  refine ⟨?_, ?_, ?_, ?_⟩
  · simp [readerGet, hstep]
  · simp [readerGet, hstep]
  · simp [readerGet, hstep]
  · intro p f
    have hc : (readerGet st now (.error e)).2.cancelled = true := by
      simp [readerGet, hstep]
    simp [watcherEvent, hc]

/-- Witness for the amended C8 at a concrete input: a fresh reader
cache whose first read fails. -/
theorem reader_load_failure_cancels_watcher_witness :
    (readerGet (readerCacheNew (T := Int)) 0 (.error "boom")).1 = .error "boom" ∧
    (readerGet (readerCacheNew (T := Int)) 0 (.error "boom")).2.cancelled = true ∧
    watcherEvent (readerGet (readerCacheNew (T := Int)) 0 (.error "boom")).2 "f" "f"
      = (readerGet (readerCacheNew (T := Int)) 0 (.error "boom")).2 := by
  have h := reader_load_failure_cancels_watcher (readerCacheNew (T := Int)) 0 "boom"
    (Or.inl rfl)
  exact ⟨h.1, h.2.2.1, h.2.2.2 "f" "f"⟩

/-- Witness for C9 at a concrete input: MustGet on a fresh buffered
cache does not panic. -/
theorem buffered_get_never_errors_witness :
    bufMustGet (bufNew Nat Nat) 0 0 7 ≠ none :=
  (buffered_get_never_errors (bufNew Nat Nat) 0 0 7).2
